import Mathlib

/-!
Shallow embedding of `src/autofix.js` (an autofixer applying ShellCheck-style
edit suggestions to a text). Text is modelled as `List Char`; JavaScript
numbers that hold offsets or deltas are modelled as `Nat`/`Int`.
-/

/-- The binary prefix-sum tree of `PrefixSumTree()` in autofix.js.
`leaf` models an absent child (`null`); a freshly created tree is the root
node `{pivot: 0, sumLeft: 0}`. -/
inductive PrefixSumTree where
  | leaf
  | node (pivot : Int) (sumLeft : Int) (left : PrefixSumTree) (right : PrefixSumTree)
deriving DecidableEq, Repr

namespace PrefixSumTree

/-- A freshly created tree: `{tree: {pivot: 0, sumLeft: 0}}`. -/
def new : PrefixSumTree := .node 0 0 .leaf .leaf

/-- `insert(node, point, value)` from autofix.js. Descending into an absent
child (modelled by `leaf`) creates `{pivot: point, sumLeft: value}`. -/
def insert : PrefixSumTree → Int → Int → PrefixSumTree
  | .leaf, point, value => .node point value .leaf .leaf
  | .node pivot sumLeft l r, point, value =>
    if point < pivot then .node pivot (sumLeft + value) (insert l point value) r
    else if point > pivot then .node pivot sumLeft l (insert r point value)
    else .node pivot (sumLeft + value) l r

/-- `lookup(node, point)` from autofix.js; a `leaf` ends the walk with sum 0. -/
def lookup : PrefixSumTree → Int → Int
  | .leaf, _ => 0
  | .node pivot sumLeft l r, point =>
    if point < pivot then lookup l point
    else if point > pivot then sumLeft + lookup r point
    else sumLeft

end PrefixSumTree

/-- Helper for `splitLines`: returns the first line and the remaining lines. -/
def splitLinesAux : List Char → List Char × List (List Char)
  | [] => ([], [])
  | c :: rest =>
    let p := splitLinesAux rest
    if c = '\n' then ([], p.1 :: p.2) else (c :: p.1, p.2)

/-- `file.split("\n")` from the `AutoFixer` constructor. -/
def splitLines (s : List Char) : List (List Char) :=
  (splitLinesAux s).1 :: (splitLinesAux s).2

/-- `getLineOffsets(lines)`: offset of the start of each line, with a final
sentinel entry holding the running sum after the last line. -/
def getLineOffsets (lines : List (List Char)) : List Nat :=
  let p := lines.foldl (fun acc l => (acc.1 ++ [acc.2], acc.2 + (l.length + 1)))
    (([] : List Nat), 0)
  p.1 ++ [p.2]

/-- The loop body of `adjustTabStops`: walks the line keeping the physical
index `i` and the `logical` column, with 8-column tab stops. -/
def adjustTabStopsAux (columnNo : Nat) : List Char → Nat → Nat → Nat
  | [], i, _ => i + 1
  | c :: rest, i, logical =>
    let logical2 := if c = '\t' then logical + (8 - logical % 8) else logical + 1
    if columnNo ≤ logical2 then i + 1 else adjustTabStopsAux columnNo rest (i + 1) logical2

/-- `adjustTabStops(lineNo, columnNo)` on an already-fetched line. -/
def adjustTabStops (line : List Char) (columnNo : Nat) : Nat :=
  adjustTabStopsAux columnNo line 0 0

/-- One raw replacement record as fed to `applyFix` (JSON from the tool). -/
structure Replacement where
  line : Nat
  column : Nat
  endLine : Nat
  endColumn : Nat
  precedence : Int
  insertionPoint : String
  replacement : List Char
deriving DecidableEq, Repr

/-- A candidate as built inside `applyFix`: a replacement resolved to
absolute 0-based offsets of the original file. `endPos` models `.end`
(a reserved word in Lean). -/
structure Candidate where
  start : Nat
  endPos : Nat
  startLine : Nat
  endLine : Nat
  precedence : Int
  point : String
  text : List Char
deriving DecidableEq, Repr

/-- The payload probed for `.replacements`; `none` models the field being
`undefined`. -/
structure FixPayload where
  replacements : Option (List Replacement)
deriving DecidableEq, Repr

/-- A value passed to `applyFix`: `null`/`undefined`, a bare fix object, or a
comment object whose truthy `.fix` field carries the payload. -/
inductive FixItem where
  | null
  | plain (payload : FixPayload)
  | comment (fix : FixPayload)
deriving DecidableEq, Repr

/-- The replacement list `applyFix` ends up iterating, if any. -/
def itemReplacements : FixItem → Option (List Replacement)
  | .null => none
  | .plain p => p.replacements
  | .comment p => p.replacements

/-- The state of one `AutoFixer` session: `_file` and `_replacements`.
`_lines` and `_lineOffsets` are pure functions of `_file`, computed once in
the constructor and never mutated; they are modelled as derived functions. -/
structure Session where
  file : List Char
  replacements : List Candidate
deriving DecidableEq, Repr

namespace Session

def new (file : List Char) : Session := ⟨file, []⟩

def lines (s : Session) : List (List Char) := splitLines s.file

def lineOffsets (s : Session) : List Nat := getLineOffsets (splitLines s.file)

def hasModifications (s : Session) : Bool := s.replacements.length > 0

def reset (s : Session) : Session := { s with replacements := [] }

end Session

/-- `getOffsetFor(line, col)`: 0-based offset into the original file.
`adjustTabStops` always returns at least 1, so the `- 1` never truncates. -/
def getOffsetFor (file : List Char) (line col : Nat) : Nat :=
  (getLineOffsets (splitLines file)).getD (line - 1) 0 +
    adjustTabStops ((splitLines file).getD (line - 1) []) col - 1

/-- The candidate object built for one replacement inside `applyFix`. -/
def buildCandidate (file : List Char) (rep : Replacement) : Candidate :=
  { start := getOffsetFor file rep.line rep.column
    endPos := getOffsetFor file rep.endLine rep.endColumn
    startLine := rep.line
    endLine := rep.endLine
    precedence := rep.precedence
    point := rep.insertionPoint
    text := rep.replacement }

/-- The half-open overlap test of `applyFix`:
`candidate.end > existing.start && existing.end > candidate.start`. -/
def overlaps (candidate existing : Candidate) : Bool :=
  decide (candidate.endPos > existing.start) && decide (existing.endPos > candidate.start)

/-- The replacement loop of `applyFix`: builds candidates in order, checking
each against the accepted set; `none` models the early `return false`. -/
def applyFixGo (file : List Char) (accepted : List Candidate) :
    List Replacement → List Candidate → Option (List Candidate)
  | [], candidates => some candidates
  | rep :: reps, candidates =>
    let candidate := buildCandidate file rep
    let candidates2 := candidates ++ [candidate]
    if accepted.any (fun existing => overlaps candidate existing) then none
    else applyFixGo file accepted reps candidates2

/-- `applyFix(item)`: returns whether the fix was accepted, and the session
afterwards (candidates are appended only on success). -/
def applyFix (s : Session) (item : FixItem) : Bool × Session :=
  match itemReplacements item with
  | none => (false, s)
  | some reps =>
    match applyFixGo s.file s.replacements reps [] with
    | none => (false, s)
    | some cands => (true, { s with replacements := s.replacements ++ cands })

/-- `applyFixes(fixlist)`: applies each fix in order, partitioning the input
into applied and rejected lists. -/
def applyFixes (s : Session) : List FixItem → (List FixItem × List FixItem) × Session
  | [] => (([], []), s)
  | f :: fs =>
    let r := applyFix s f
    let rest := applyFixes r.2 fs
    (if r.1 then (f :: rest.1.1, rest.1.2) else (rest.1.1, f :: rest.1.2), rest.2)

/-- `applyReplacement(file, tree, rep)`: splices one candidate into the
current file, shifting its original offsets through the tree, then records
the net length delta at the designated anchor point. A shifted offset is
clamped exactly as `String.prototype.substring` clamps its arguments (a
negative index acts as 0, an index past the end acts as the length).
An unrecognized insertion point throws. -/
def applyReplacement (file : List Char) (tree : PrefixSumTree) (rep : Candidate) :
    Except String (List Char × PrefixSumTree) :=
  let fromOff : Int := rep.start + tree.lookup rep.start
  let toOff : Int := rep.endPos + tree.lookup rep.endPos
  let file2 := file.take fromOff.toNat ++ rep.text ++ file.drop toOff.toNat
  if rep.point = "beforeStart" then
    .ok (file2, tree.insert rep.start (rep.text.length - (toOff - fromOff)))
  else if rep.point = "afterEnd" then
    .ok (file2, tree.insert (rep.endPos + 1) (rep.text.length - (toOff - fromOff)))
  else
    .error ("Unrecognized insertion point " ++ rep.point)

/-- The application loop shared by `getResult` and `getSnippet`: folds
`applyReplacement` over a candidate list, threading file and tree. -/
def applyAll (file : List Char) (tree : PrefixSumTree) :
    List Candidate → Except String (List Char × PrefixSumTree)
  | [] => .ok (file, tree)
  | rep :: reps =>
    match applyReplacement file tree rep with
    | .error e => .error e
    | .ok p => applyAll p.1 p.2 reps

/-- The in-place `sort` by descending precedence used by `getResult` and
`getSnippet`; the JavaScript sort is stable, modelled by `mergeSort`. -/
def sortByPrec (l : List Candidate) : List Candidate :=
  l.mergeSort (fun a b => decide (b.precedence ≤ a.precedence))

/-- `getResult()`: renders the patched file. The sort mutates
`_replacements`, so the session after the call is returned as well. -/
def getResult (s : Session) : Except String (List Char) × Session :=
  let sorted := sortByPrec s.replacements
  ((applyAll s.file PrefixSumTree.new sorted.reverse).map Prod.fst,
    { s with replacements := sorted })

/-- `String.prototype.substring(a, b)` on a `List Char`: clamps both
arguments into `[0, length]` and swaps them when `a > b`. -/
def jsSubstring (file : List Char) (a b : Int) : List Char :=
  let len : Int := file.length
  let a2 := min (max a 0) len
  let b2 := min (max b 0) len
  (file.take (max a2 b2).toNat).drop (min a2 b2).toNat

/-- The loop of `getSnippet`: applies every candidate while tracking the
lowest start line and highest end line. -/
def applySnippetAll : List Char → PrefixSumTree → Nat → Nat → List Candidate →
    Except String (List Char × PrefixSumTree × Nat × Nat)
  | file, tree, minLine, maxLine, [] => .ok (file, tree, minLine, maxLine)
  | file, tree, minLine, maxLine, rep :: reps =>
    match applyReplacement file tree rep with
    | .error e => .error e
    | .ok p =>
      applySnippetAll p.1 p.2 (min minLine rep.startLine) (max maxLine rep.endLine) reps

/-- `getSnippet()`: throws when no fix has been applied; otherwise renders and
cuts out the lines from the lowest start line to the highest end line,
shifting the end offset through the tree. -/
instance : Inhabited Candidate := ⟨⟨0, 0, 0, 0, 0, "", []⟩⟩

/-- `getSnippet()`: throws when no fix has been applied; otherwise sorts,
renders while tracking the lowest start line and highest end line (seeded from
the first sorted candidate, `this._replacements[0]`), and cuts out those lines,
shifting the end offset through the tree. -/
def getSnippet (s : Session) : Except String (List Char) × Session :=
  if s.replacements.length = 0 then
    (.error "No fixes have been applied.", s)
  else
    match applySnippetAll s.file PrefixSumTree.new
        ((sortByPrec s.replacements).headD default).startLine
        ((sortByPrec s.replacements).headD default).endLine
        (sortByPrec s.replacements).reverse with
    | .error e => (.error e, { s with replacements := sortByPrec s.replacements })
    | .ok (file, tree, minLine, maxLine) =>
      (.ok (jsSubstring file ((getLineOffsets (splitLines s.file)).getD (minLine - 1) 0 : Int)
          (((getLineOffsets (splitLines s.file)).getD maxLine 0 : Int)
            + tree.lookup ((getLineOffsets (splitLines s.file)).getD maxLine 0 : Int))),
        { s with replacements := sortByPrec s.replacements })

/-! ### Prefix-sum tree theory -/

namespace PrefixSumTree

theorem lookup_new (p : Int) : new.lookup p = 0 := by
  unfold new lookup
  split
  · rfl
  · split <;> rfl

theorem lookup_insert (t : PrefixSumTree) (q v p : Int) :
    (t.insert q v).lookup p = t.lookup p + (if q ≤ p then v else 0) := by
  induction t with
  | leaf =>
    unfold insert lookup
    rcases lt_trichotomy p q with h | h | h <;> simp [lookup] <;> omega
  | node pivot sumLeft l r ihl ihr =>
    unfold insert
    rcases lt_trichotomy q pivot with hq | hq | hq
    · rw [if_pos hq]
      unfold lookup
      rcases lt_trichotomy p pivot with hp | hp | hp
      · rw [if_pos hp, if_pos hp, ihl]
      · subst hp
        rw [if_neg (lt_irrefl p), if_neg (lt_irrefl p), if_neg (lt_irrefl p),
          if_neg (lt_irrefl p), if_pos (le_of_lt hq)]
      · rw [if_neg (not_lt.mpr (le_of_lt hp)), if_pos hp,
          if_neg (not_lt.mpr (le_of_lt hp)), if_pos hp, if_pos (by omega : q ≤ p)]
        ring
    · subst hq
      rw [if_neg (lt_irrefl q), if_neg (lt_irrefl q)]
      unfold lookup
      rcases lt_trichotomy p q with hp | hp | hp
      · rw [if_pos hp, if_pos hp, if_neg (by omega : ¬ q ≤ p)]
        ring
      · subst hp
        rw [if_neg (lt_irrefl p), if_neg (lt_irrefl p), if_neg (lt_irrefl p),
          if_neg (lt_irrefl p), if_pos le_rfl]
      · rw [if_neg (by omega : ¬ p < q), if_pos hp, if_neg (by omega : ¬ p < q),
          if_pos hp, if_pos (le_of_lt hp)]
        ring
    · rw [if_neg (by omega : ¬ q < pivot), if_pos hq]
      unfold lookup
      rcases lt_trichotomy p pivot with hp | hp | hp
      · rw [if_pos hp, if_pos hp, if_neg (by omega : ¬ q ≤ p)]
        ring
      · subst hp
        rw [if_neg (lt_irrefl p), if_neg (lt_irrefl p), if_neg (lt_irrefl p),
          if_neg (lt_irrefl p), if_neg (by omega : ¬ q ≤ p)]
        ring
      · rw [if_neg (by omega : ¬ p < pivot), if_pos hp,
          if_neg (by omega : ¬ p < pivot), if_pos hp, ihr]
        ring
end PrefixSumTree

theorem foldl_insert_lookup (ops : List (Int × Int)) (p : Int) :
    ∀ t : PrefixSumTree,
      (ops.foldl (fun t op => t.insert op.1 op.2) t).lookup p
        = t.lookup p + ((ops.filter (fun op => decide (op.1 ≤ p))).map (fun op => op.2)).sum := by
  induction ops with
  | nil => intro t; simp
  | cons op ops ih =>
    intro t
    rw [List.foldl_cons, ih, PrefixSumTree.lookup_insert]
    by_cases h : op.1 ≤ p
    · rw [if_pos h, List.filter_cons_of_pos (by simpa using h)]
      simp; ring
    · rw [if_neg h, List.filter_cons_of_neg (by simpa using h)]
      ring

/-- Claim C1: on a freshly created `PrefixSumTree`, after any sequence of
`insert(point, delta)` operations, `lookup(p)` returns exactly the sum of the
deltas of all inserted points that are at most `p`. -/
theorem C1_lookup_is_prefix_sum (ops : List (Int × Int)) (p : Int) :
    ((ops.foldl (fun t op => t.insert op.1 op.2) PrefixSumTree.new).lookup p)
      = ((ops.filter (fun op => decide (op.1 ≤ p))).map (fun op => op.2)).sum := by
  rw [foldl_insert_lookup, PrefixSumTree.lookup_new, zero_add]

/-! ### Acceptance and rejection of fixes -/

theorem applyFixGo_eq_none (file : List Char) (accepted : List Candidate) :
    ∀ (reps : List Replacement) (acc : List Candidate),
      (∃ rep ∈ reps, ∃ e ∈ accepted, overlaps (buildCandidate file rep) e = true) →
      applyFixGo file accepted reps acc = none := by
  intro reps
  induction reps with
  | nil => intro acc h; simp at h
  | cons rep reps ih =>
    intro acc h
    unfold applyFixGo
    by_cases hany : accepted.any (fun existing => overlaps (buildCandidate file rep) existing)
    · rw [if_pos hany]
    · rw [if_neg hany]
      apply ih
      rcases h with ⟨r, hr, e, he, hov⟩
      rcases List.mem_cons.mp hr with rfl | hr2
      · exact absurd (List.any_eq_true.mpr ⟨e, he, by simpa using hov⟩) hany
      · exact ⟨r, hr2, e, he, hov⟩

theorem applyFixGo_eq_some (file : List Char) (accepted : List Candidate) :
    ∀ (reps : List Replacement) (acc : List Candidate),
      (∀ rep ∈ reps, ∀ e ∈ accepted, overlaps (buildCandidate file rep) e = false) →
      applyFixGo file accepted reps acc = some (acc ++ reps.map (buildCandidate file)) := by
  intro reps
  induction reps with
  | nil => intro acc _; simp [applyFixGo]
  | cons rep reps ih =>
    intro acc h
    unfold applyFixGo
    rw [if_neg, ih]
    · simp
    · intro r hr e he
      exact h r (List.mem_cons_of_mem _ hr) e he
    · simp only [List.any_eq_true, not_exists, not_and, Bool.not_eq_true]
      intro e he
      exact h rep (List.mem_cons_self _ _) e he

theorem applyFixGo_some_inv (file : List Char) (accepted : List Candidate) :
    ∀ (reps : List Replacement) (acc out : List Candidate),
      applyFixGo file accepted reps acc = some out →
      out = acc ++ reps.map (buildCandidate file) ∧
        ∀ rep ∈ reps, ∀ e ∈ accepted, overlaps (buildCandidate file rep) e = false := by
  intro reps
  induction reps with
  | nil =>
    intro acc out h
    simp [applyFixGo] at h
    simp [h.symm]
  | cons rep reps ih =>
    intro acc out h
    unfold applyFixGo at h
    by_cases hany : accepted.any (fun existing => overlaps (buildCandidate file rep) existing)
    · rw [if_pos hany] at h; exact absurd h (by simp)
    · rw [if_neg hany] at h
      obtain ⟨hout, hrest⟩ := ih _ _ h
      constructor
      · simpa using hout
      · intro r hr e he
        rcases List.mem_cons.mp hr with rfl | hr2
        · simp only [List.any_eq_true, not_exists, not_and, Bool.not_eq_true] at hany
          exact hany e he
        · exact hrest r hr2 e he

/-- Claim C2: if any candidate built from the replacements of a submitted fix
overlaps (half-open test) a candidate already accepted, `applyFix` returns
`false` and leaves the session, in particular its accepted set, unchanged. -/
theorem C2_overlapping_fix_rejected_atomically (s : Session) (item : FixItem)
    (reps : List Replacement) (hreps : itemReplacements item = some reps)
    (hov : ∃ rep ∈ reps, ∃ e ∈ s.replacements, overlaps (buildCandidate s.file rep) e = true) :
    applyFix s item = (false, s) := by
  have h := applyFixGo_eq_none s.file s.replacements reps [] hov
  simp [applyFix, hreps, h]

def c2session : Session :=
  ⟨"abcdefghij".toList, [⟨2, 5, 1, 1, 2, "beforeStart", ['X']⟩]⟩

def c2item : FixItem := .plain ⟨some [⟨1, 4, 1, 6, 1, "beforeStart", ['Y']⟩]⟩

/-- Witness for claim C2: a concrete fix whose candidate `[3,5)` overlaps the
accepted candidate `[2,5)` is rejected with the session unchanged. -/
theorem C2_witness : applyFix c2session c2item = (false, c2session) :=
  C2_overlapping_fix_rejected_atomically c2session c2item _ rfl (by decide)

/-- Claim C6 counterexample: a fix carrying an empty replacements sequence is
accepted (`applyFix` returns `true`), not rejected as the claim states; the
accepted set is unchanged. -/
theorem C6_counterexample :
    applyFix (Session.new "abc".toList) (.plain ⟨some []⟩) = (true, Session.new "abc".toList) := by
  decide

/-- Claim C6 (amended): a fix whose replacements sequence is empty is accepted
(`applyFix` returns `true`) and leaves the accepted set unchanged; only a null
fix or a fix without a replacements sequence is rejected. -/
theorem C6_empty_replacements (s : Session) (item : FixItem)
    (hreps : itemReplacements item = some []) :
    applyFix s item = (true, s) ∧
      (∀ item2 : FixItem, itemReplacements item2 = none → applyFix s item2 = (false, s)) := by
  constructor
  · unfold applyFix
    rw [hreps]
    simp [applyFixGo]
  · intro item2 h2
    unfold applyFix
    rw [h2]

/-- Witness for claim C6: concrete empty-replacements fix accepted with the
session unchanged, and a null fix rejected. -/
theorem C6_witness :
    applyFix c2session (.comment ⟨some []⟩) = (true, c2session) ∧
      applyFix c2session .null = (false, c2session) := by
  refine ⟨(C6_empty_replacements c2session (.comment ⟨some []⟩) rfl).1, ?_⟩
  exact (C6_empty_replacements c2session (.comment ⟨some []⟩) rfl).2 .null rfl

theorem overlaps_eq_false_of_touching (c e : Candidate)
    (h : c.endPos = e.start ∨ e.endPos = c.start) : overlaps c e = false := by
  unfold overlaps
  rcases h with h | h <;> simp [h]

/-- Claim C10: candidates that merely touch an accepted candidate at one
endpoint (including zero-width candidates at such a boundary) fail the overlap
test, and a fix all of whose candidates only touch accepted candidates is
accepted, its candidates being appended to the accepted set. -/
theorem C10_touching_ranges_not_conflicting (s : Session) (item : FixItem)
    (reps : List Replacement) (hreps : itemReplacements item = some reps)
    (htouch : ∀ rep ∈ reps, ∀ e ∈ s.replacements,
      (buildCandidate s.file rep).endPos = e.start ∨ e.endPos = (buildCandidate s.file rep).start) :
    (∀ rep ∈ reps, ∀ e ∈ s.replacements, overlaps (buildCandidate s.file rep) e = false) ∧
      applyFix s item =
        (true, { s with replacements := s.replacements ++ reps.map (buildCandidate s.file) }) := by
  have hno : ∀ rep ∈ reps, ∀ e ∈ s.replacements, overlaps (buildCandidate s.file rep) e = false :=
    fun rep hr e he => overlaps_eq_false_of_touching _ _ (htouch rep hr e he)
  refine ⟨hno, ?_⟩
  have h := applyFixGo_eq_some s.file s.replacements reps [] hno
  simp [applyFix, hreps, h]

def c10item : FixItem := .plain ⟨some [⟨1, 6, 1, 8, 1, "beforeStart", ['Q']⟩]⟩

/-- Witness for claim C10: a concrete candidate `[5,7)` touching the accepted
candidate `[2,5)` at offset 5 passes the overlap test and its fix is accepted. -/
theorem C10_witness :
    (∀ rep ∈ [(⟨1, 6, 1, 8, 1, "beforeStart", ['Q']⟩ : Replacement)], ∀ e ∈ c2session.replacements,
      overlaps (buildCandidate c2session.file rep) e = false) ∧
      applyFix c2session c10item =
        (true, { c2session with
          replacements := c2session.replacements ++
            [(⟨1, 6, 1, 8, 1, "beforeStart", ['Q']⟩ : Replacement)].map (buildCandidate c2session.file) }) :=
  C10_touching_ranges_not_conflicting c2session c10item _ rfl (by decide)

/-! ### Line offset table -/

/-- The list of running sums produced by the `getLineOffsets` loop. -/
def lineSums : List (List Char) → Nat → List Nat
  | [], sum => [sum]
  | l :: ls, sum => sum :: lineSums ls (sum + (l.length + 1))

theorem foldl_offsets (lines : List (List Char)) :
    ∀ (acc : List Nat) (sum : Nat),
      (let p := lines.foldl (fun acc l => (acc.1 ++ [acc.2], acc.2 + (l.length + 1))) (acc, sum)
       p.1 ++ [p.2]) = acc ++ lineSums lines sum := by
  induction lines with
  | nil => intro acc sum; simp [lineSums]
  | cons l ls ih =>
    intro acc sum
    simp only [List.foldl_cons, lineSums]
    rw [ih (acc ++ [sum]) (sum + (l.length + 1))]
    simp

theorem getLineOffsets_eq (lines : List (List Char)) :
    getLineOffsets lines = lineSums lines 0 := by
  have h := foldl_offsets lines [] 0
  simpa [getLineOffsets] using h

theorem lineSums_length (ls : List (List Char)) : ∀ sum, (lineSums ls sum).length = ls.length + 1 := by
  induction ls with
  | nil => intro sum; rfl
  | cons l ls ih => intro sum; simp [lineSums, ih]

theorem lineSums_getD (ls : List (List Char)) :
    ∀ (sum i : Nat), i ≤ ls.length →
      (lineSums ls sum).getD i 0 = sum + (((ls.take i).map (fun l => l.length + 1)).sum) := by
  induction ls with
  | nil =>
    intro sum i hi
    have h0 : i = 0 := Nat.le_zero.mp hi
    subst h0
    simp [lineSums]
  | cons l ls ih =>
    intro sum i hi
    match i with
    | 0 => simp [lineSums]
    | j + 1 =>
      simp only [lineSums, List.getD_cons_succ, List.take_succ_cons, List.map_cons, List.sum_cons]
      rw [ih _ j (by simpa using hi)]
      omega

theorem lineSums_le (ls : List (List Char)) :
    ∀ (sum b : Nat), b ∈ lineSums ls sum → sum ≤ b := by
  induction ls with
  | nil => intro sum b hb; simp [lineSums] at hb; omega
  | cons l ls ih =>
    intro sum b hb
    simp only [lineSums, List.mem_cons] at hb
    rcases hb with rfl | hb
    · exact le_rfl
    · have := ih _ b hb
      omega

theorem lineSums_sorted (ls : List (List Char)) :
    ∀ sum, List.Pairwise (· < ·) (lineSums ls sum) := by
  induction ls with
  | nil => intro sum; simp [lineSums]
  | cons l ls ih =>
    intro sum
    refine List.pairwise_cons.mpr ⟨?_, ih _⟩
    intro b hb
    have := lineSums_le ls _ b hb
    omega

theorem splitLinesAux_length (f : List Char) :
    (splitLinesAux f).1.length + (((splitLinesAux f).2).map (fun l => l.length + 1)).sum = f.length := by
  induction f with
  | nil => simp [splitLinesAux]
  | cons c rest ih =>
    simp only [splitLinesAux]
    by_cases h : c = '\n'
    · rw [if_pos h]
      simp only [List.map_cons, List.sum_cons, List.length_cons, List.length_nil]
      omega
    · rw [if_neg h]
      simp only [List.length_cons]
      omega

theorem sum_lineLens_splitLines (f : List Char) :
    (((splitLines f).map (fun l => l.length + 1)).sum) = f.length + 1 := by
  have h := splitLinesAux_length f
  simp only [splitLines, List.map_cons, List.sum_cons]
  omega

/-- Claim C5 counterexample: for the text `"ab\nc"` (length 4, two lines), the
terminal sentinel entry of the line-offset table is 5, not the total length. -/
theorem C5_counterexample :
    (getLineOffsets (splitLines ['a', 'b', '\n', 'c'])).getD
        (splitLines ['a', 'b', '\n', 'c']).length 0
      ≠ (['a', 'b', '\n', 'c'] : List Char).length := by
  decide

/-- Claim C5 (amended): the line-offset table has one entry per line plus a
terminal sentinel; the entry for line `i` is the sum of (length + 1) over all
preceding lines; the sentinel equals the total length of the text plus one
(not the total length); and the table is strictly increasing. -/
theorem C5_line_offsets (file : List Char) :
    (getLineOffsets (splitLines file)).length = (splitLines file).length + 1 ∧
    (∀ i, i ≤ (splitLines file).length →
      (getLineOffsets (splitLines file)).getD i 0
        = ((((splitLines file).take i).map (fun l => l.length + 1)).sum)) ∧
    (getLineOffsets (splitLines file)).getD (splitLines file).length 0 = file.length + 1 ∧
    List.Pairwise (· < ·) (getLineOffsets (splitLines file)) := by
  rw [getLineOffsets_eq]
  refine ⟨lineSums_length _ _,
    fun i hi => by have h := lineSums_getD (splitLines file) 0 i hi; simpa using h,
    ?_, lineSums_sorted _ _⟩
  have h1 := lineSums_getD (splitLines file) 0 (splitLines file).length le_rfl
  rw [List.take_length] at h1
  rw [h1, sum_lineLens_splitLines]
  omega

/-- Witness for claim C5: the amended characterization evaluated on the
concrete text `"a\nb"` at line index 1. -/
theorem C5_witness :
    (getLineOffsets (splitLines ['a', '\n', 'b'])).getD 1 0
      = ((((splitLines ['a', '\n', 'b']).take 1).map (fun l => l.length + 1)).sum) ∧
    (getLineOffsets (splitLines ['a', '\n', 'b'])).getD (splitLines ['a', '\n', 'b']).length 0
      = (['a', '\n', 'b'] : List Char).length + 1 :=
  ⟨(C5_line_offsets ['a', '\n', 'b']).2.1 1 (by decide), (C5_line_offsets ['a', '\n', 'b']).2.2.1⟩

/-! ### Tab-stop translation -/

theorem adjustTabStopsAux_tab_free (c : Nat) :
    ∀ (rest : List Char) (i : Nat), 1 ≤ c → i < c → c ≤ i + rest.length + 1 →
      (∀ ch ∈ rest.take (c - 1 - i), ch ≠ '\t') →
      adjustTabStopsAux c rest i i = c := by
  intro rest
  induction rest with
  | nil =>
    intro i h1 h2 h3 _
    simp only [List.length_nil] at h3
    unfold adjustTabStopsAux
    omega
  | cons ch rest ih =>
    intro i h1 h2 h3 h4
    unfold adjustTabStopsAux
    by_cases hc : c ≤ i + 1
    · have hci : c = i + 1 := by omega
      have hle : ∀ l2, i + 1 ≤ l2 → c ≤ l2 := fun l2 h => by omega
      by_cases ht : ch = '\t'
      · rw [if_pos ht, if_pos (hle _ (by have := Nat.mod_lt i (by omega : 0 < 8); omega))]
        omega
      · rw [if_neg ht, if_pos (by omega : c ≤ i + 1)]
        omega
    · have htake : (c - 1 - i) = (c - 2 - i) + 1 := by omega
      have hch : ch ≠ '\t' := by
        apply h4
        rw [htake, List.take_succ_cons]
        exact List.mem_cons_self _ _
      rw [if_neg hch, if_neg (by omega : ¬ c ≤ i + 1)]
      apply ih (i + 1) h1 (by omega) (by simp at h3 ⊢; omega)
      intro ch2 hch2
      apply h4
      rw [htake, List.take_succ_cons]
      exact List.mem_cons_of_mem _ (by have he : c - 1 - (i + 1) = c - 2 - i := by omega
                                       rwa [he] at hch2)

/-- Claim C8 counterexample: the line `"ab"` contains no tab at all, yet for
the requested logical column 5 (beyond the line) `adjustTabStops` returns 3,
not 5: the translation is not the identity for out-of-range columns. -/
theorem C8_counterexample :
    (∀ ch ∈ (['a', 'b'] : List Char), ch ≠ '\t') ∧ adjustTabStops ['a', 'b'] 5 ≠ 5 := by
  decide

/-- Claim C8 (amended): for a requested logical column `c` with
`1 ≤ c ≤ length + 1`, if the line contains no tab character before column `c`,
then `adjustTabStops` returns exactly `c`; columns beyond `length + 1` fall
back to `length + 1` instead. -/
theorem C8_tab_translation_identity (line : List Char) (c : Nat)
    (h1 : 1 ≤ c) (h2 : c ≤ line.length + 1)
    (h3 : ∀ ch ∈ line.take (c - 1), ch ≠ '\t') :
    adjustTabStops line c = c := by
  unfold adjustTabStops
  apply adjustTabStopsAux_tab_free c line 0 h1 (by omega) (by omega)
  simpa using h3

/-- Witness for claim C8: on the concrete line `"a\tb"` the translation of
column 2 (whose prefix before it is tab-free) is exactly 2. -/
theorem C8_witness : adjustTabStops ['a', '\t', 'b'] 2 = 2 :=
  C8_tab_translation_identity ['a', '\t', 'b'] 2 (by decide) (by decide) (by decide)

/-! ### Rendering: sort behaviour -/

theorem sortByPrec_sorted (l : List Candidate) :
    List.Pairwise (fun a b => decide (b.precedence ≤ a.precedence) = true) (sortByPrec l) := by
  apply List.sorted_mergeSort
  · intro a b c hab hbc
    simp only [decide_eq_true_eq] at hab hbc ⊢
    exact le_trans hbc hab
  · intro a b
    simp only [Bool.or_eq_true, decide_eq_true_eq]
    exact le_total b.precedence a.precedence

theorem sortByPrec_idem (l : List Candidate) : sortByPrec (sortByPrec l) = sortByPrec l :=
  List.mergeSort_of_sorted (sortByPrec_sorted l)

theorem sortByPrec_perm (l : List Candidate) : (sortByPrec l).Perm l :=
  List.mergeSort_perm l _

theorem sortByPrec_length (l : List Candidate) : (sortByPrec l).length = l.length :=
  List.length_mergeSort l

/-- Claim C7: rendering is idempotent: a second `getResult()` call with no
intervening mutation returns exactly the same result as the first (including
in the fatal-insertion-point case, where both calls fail with the same error). -/
theorem C7_getResult_idempotent (s : Session) :
    (getResult ((getResult s).2)).1 = (getResult s).1 := by
  unfold getResult
  simp only [sortByPrec_idem]

/-- Claim C9 counterexample: a reachable session holding two accepted
candidates in precedence order 1 then 7; `getResult()` re-sorts the accepted
list in place by descending precedence, so the accepted-set sequence after the
call differs from the sequence before it. -/
theorem C9_counterexample :
    (applyFix (Session.new "abcdefghij".toList)
        (.plain ⟨some [⟨1, 7, 1, 9, 1, "beforeStart", ['Q']⟩]⟩)).1 = true ∧
    (applyFix (applyFix (Session.new "abcdefghij".toList)
        (.plain ⟨some [⟨1, 7, 1, 9, 1, "beforeStart", ['Q']⟩]⟩)).2
        (.plain ⟨some [⟨1, 3, 1, 6, 7, "beforeStart", ['R']⟩]⟩)).1 = true ∧
    ((getResult (applyFix (applyFix (Session.new "abcdefghij".toList)
        (.plain ⟨some [⟨1, 7, 1, 9, 1, "beforeStart", ['Q']⟩]⟩)).2
        (.plain ⟨some [⟨1, 3, 1, 6, 7, "beforeStart", ['R']⟩]⟩)).2).2).replacements
      ≠ ((applyFix (applyFix (Session.new "abcdefghij".toList)
        (.plain ⟨some [⟨1, 7, 1, 9, 1, "beforeStart", ['Q']⟩]⟩)).2
        (.plain ⟨some [⟨1, 3, 1, 6, 7, "beforeStart", ['R']⟩]⟩)).2).replacements := by
  refine ⟨by decide, by decide, ?_⟩
  have hrepl : (applyFix (applyFix (Session.new "abcdefghij".toList)
      (.plain ⟨some [⟨1, 7, 1, 9, 1, "beforeStart", ['Q']⟩]⟩)).2
      (.plain ⟨some [⟨1, 3, 1, 6, 7, "beforeStart", ['R']⟩]⟩)).2.replacements
      = [⟨6, 8, 1, 1, 1, "beforeStart", ['Q']⟩, ⟨2, 5, 1, 1, 7, "beforeStart", ['R']⟩] := by
    decide
  have hres : ∀ u : Session, (getResult u).2.replacements = sortByPrec u.replacements := by
    intro u; simp [getResult]
  rw [hres, hrepl]
  intro heq
  have hsort := sortByPrec_sorted
    [⟨6, 8, 1, 1, 1, "beforeStart", ['Q']⟩, ⟨2, 5, 1, 1, 7, "beforeStart", ['R']⟩]
  rw [heq] at hsort
  have h2 := (List.pairwise_cons.mp hsort).1 _ (List.mem_cons_self _ _)
  simp at h2

theorem getResult_state (s : Session) :
    (getResult s).2 = { s with replacements := sortByPrec s.replacements } := rfl

theorem getSnippet_state (s : Session) :
    (getSnippet s).2 = if s.replacements.length = 0 then s
      else { s with replacements := sortByPrec s.replacements } := by
  unfold getSnippet
  by_cases h : s.replacements.length = 0
  · rw [if_pos h, if_pos h]
  · rw [if_neg h, if_neg h]
    generalize applySnippetAll s.file PrefixSumTree.new
        ((sortByPrec s.replacements).headD default).startLine
        ((sortByPrec s.replacements).headD default).endLine
        (sortByPrec s.replacements).reverse = m
    rcases m with e | ⟨f, t, mn, mx⟩ <;> rfl

/-- Claim C9 (amended): rendering is read-only on the accepted set up to
order: `getResult` and `getSnippet` keep exactly the same candidates (as a
permutation — the list is re-sorted in place by descending precedence), never
touch the file, and accumulate no state: after one rendering call the session
is a fixed point of further rendering calls. -/
theorem C9_rendering_frame (s : Session) :
    ((getResult s).2.replacements.Perm s.replacements) ∧
    ((getSnippet s).2.replacements.Perm s.replacements) ∧
    (getResult s).2.file = s.file ∧
    (getSnippet s).2.file = s.file ∧
    (getResult ((getResult s).2)).2 = (getResult s).2 ∧
    (getSnippet ((getSnippet s).2)).2 = (getSnippet s).2 := by
  refine ⟨?_, ?_, ?_, ?_, ?_, ?_⟩
  · rw [getResult_state]
    exact sortByPrec_perm _
  · rw [getSnippet_state]
    split_ifs
    · exact List.Perm.refl _
    · exact sortByPrec_perm _
  · rw [getResult_state]
  · rw [getSnippet_state]
    split_ifs <;> rfl
  · rw [getResult_state, getResult_state]
    simp [sortByPrec_idem]
  · rw [getSnippet_state, getSnippet_state]
    by_cases h : s.replacements.length = 0
    · simp [h]
    · have h1 : ¬ s.replacements = [] := by
        intro hh; exact h (by simp [hh])
      have h2 : ¬ sortByPrec s.replacements = [] := by
        intro hh
        have := sortByPrec_length s.replacements
        rw [hh] at this
        exact h (by simpa using this.symm)
      simp [h1, h2, sortByPrec_idem]

/-! ### The disjointness invariant of the accepted set -/

theorem overlaps_symm_false (c d : Candidate) (h : overlaps c d = false) :
    overlaps d c = false := by
  unfold overlaps at h ⊢
  simp only [Bool.and_eq_false_iff, decide_eq_false_iff_not, not_lt] at h ⊢
  omega

/-- Boolean pairwise non-overlap check over a candidate list. -/
def pairwiseNoOverlapB : List Candidate → Bool
  | [] => true
  | c :: cs => cs.all (fun d => !(overlaps c d)) && pairwiseNoOverlapB cs

theorem pairwiseNoOverlapB_iff (l : List Candidate) :
    pairwiseNoOverlapB l = true ↔ l.Pairwise (fun c d => overlaps c d = false) := by
  induction l with
  | nil => simp [pairwiseNoOverlapB]
  | cons c cs ih =>
    simp [pairwiseNoOverlapB, List.pairwise_cons, ih, List.all_eq_true, and_comm]

/-- A fix none of whose own candidates overlap each other (the side condition
under which the disjointness invariant of the accepted set is preserved). -/
def internallyDisjoint (file : List Char) (item : FixItem) : Bool :=
  match itemReplacements item with
  | none => true
  | some reps => pairwiseNoOverlapB (reps.map (buildCandidate file))

theorem applyFix_file (s : Session) (item : FixItem) : (applyFix s item).2.file = s.file := by
  cases h : itemReplacements item with
  | none => simp [applyFix, h]
  | some reps =>
    cases h2 : applyFixGo s.file s.replacements reps [] <;> simp [applyFix, h, h2]

theorem applyFixes_file (items : List FixItem) :
    ∀ s : Session, (applyFixes s items).2.file = s.file := by
  induction items with
  | nil => intro s; rfl
  | cons f fs ih =>
    intro s
    unfold applyFixes
    rw [ih (applyFix s f).2, applyFix_file]

/-- Sessions reachable from a fresh `AutoFixer` by `applyFix`, `applyFixes`
and `reset` calls in which every submitted fix is internally disjoint. -/
inductive ReachableDisj (file : List Char) : Session → Prop where
  | init : ReachableDisj file (Session.new file)
  | stepFix (s : Session) (item : FixItem) : ReachableDisj file s →
      internallyDisjoint file item = true → ReachableDisj file (applyFix s item).2
  | stepFixes (s : Session) (items : List FixItem) : ReachableDisj file s →
      (∀ it ∈ items, internallyDisjoint file it = true) →
      ReachableDisj file (applyFixes s items).2
  | stepReset (s : Session) : ReachableDisj file s → ReachableDisj file s.reset

theorem applyFix_preserves_pairwise (s : Session) (item : FixItem)
    (hint : internallyDisjoint s.file item = true)
    (hpw : s.replacements.Pairwise (fun c d => overlaps c d = false)) :
    (applyFix s item).2.replacements.Pairwise (fun c d => overlaps c d = false) := by
  cases hreps : itemReplacements item with
  | none => simpa [applyFix, hreps] using hpw
  | some reps =>
    cases hgo : applyFixGo s.file s.replacements reps [] with
    | none => simpa [applyFix, hreps, hgo] using hpw
    | some cands =>
      obtain ⟨hout, hno⟩ := applyFixGo_some_inv s.file s.replacements reps [] cands hgo
      have hstate : (applyFix s item).2.replacements = s.replacements ++ cands := by
        simp [applyFix, hreps, hgo]
      rw [hstate, List.pairwise_append]
      refine ⟨hpw, ?_, ?_⟩
      · rw [hout]
        simp only [List.nil_append]
        simp only [internallyDisjoint, hreps] at hint
        exact (pairwiseNoOverlapB_iff _).mp hint
      · intro a ha b hb
        rw [hout] at hb
        simp only [List.nil_append, List.mem_map] at hb
        obtain ⟨rep, hrep, rfl⟩ := hb
        exact overlaps_symm_false _ _ (hno rep hrep a ha)

theorem applyFixes_preserves_pairwise (items : List FixItem) :
    ∀ s : Session, (∀ it ∈ items, internallyDisjoint s.file it = true) →
      s.replacements.Pairwise (fun c d => overlaps c d = false) →
      (applyFixes s items).2.replacements.Pairwise (fun c d => overlaps c d = false) := by
  induction items with
  | nil => intro s _ hpw; exact hpw
  | cons f fs ih =>
    intro s hint hpw
    unfold applyFixes
    apply ih
    · intro it hit
      rw [applyFix_file]
      exact hint it (List.mem_cons_of_mem _ hit)
    · exact applyFix_preserves_pairwise s f (hint f (List.mem_cons_self _ _)) hpw

/-- Claim C3 (amended): in every session state reachable by `applyFix`,
`applyFixes` and `reset` calls in which each submitted fix is internally
disjoint (no two candidates of one and the same fix overlap each other), the
half-open ranges of the accepted candidates are pairwise non-overlapping.
Conflict checking skips sibling candidates of a single fix, so a fix whose own
replacements overlap breaks the invariant. -/
theorem C3_accepted_set_pairwise_disjoint (file : List Char) (s : Session)
    (h : ReachableDisj file s) :
    s.replacements.Pairwise (fun c d => overlaps c d = false) := by
  have main : s.file = file ∧ s.replacements.Pairwise (fun c d => overlaps c d = false) := by
    induction h with
    | init => exact ⟨rfl, List.Pairwise.nil⟩
    | stepFix s item _ hint ih =>
      exact ⟨by rw [applyFix_file]; exact ih.1,
        applyFix_preserves_pairwise s item (ih.1 ▸ hint) ih.2⟩
    | stepFixes s items _ hint ih =>
      exact ⟨by rw [applyFixes_file]; exact ih.1,
        applyFixes_preserves_pairwise items s (fun it hit => ih.1 ▸ hint it hit) ih.2⟩
    | stepReset s _ ih => exact ⟨ih.1, List.Pairwise.nil⟩
  exact main.2

/-- Claim C3 counterexample: a single fix whose two replacements overlap each
other (`[0,3)` and `[1,4)`) is accepted whole — conflict checking only looks
at previously accepted candidates — leaving the accepted set with an
overlapping pair, so the invariant as claimed is violated in a state reachable
by one `applyFix` call. -/
theorem C3_counterexample :
    (applyFix (Session.new "abcdef".toList)
      (.plain ⟨some [⟨1, 1, 1, 4, 1, "beforeStart", ['X']⟩,
                     ⟨1, 2, 1, 5, 1, "beforeStart", ['Y']⟩]⟩)).1 = true ∧
    ¬ ((applyFix (Session.new "abcdef".toList)
      (.plain ⟨some [⟨1, 1, 1, 4, 1, "beforeStart", ['X']⟩,
                     ⟨1, 2, 1, 5, 1, "beforeStart", ['Y']⟩]⟩)).2.replacements.Pairwise
        (fun c d => overlaps c d = false)) := by
  constructor
  · decide
  · intro hpw
    have h2 := (List.pairwise_cons.mp (by
      have he : (applyFix (Session.new "abcdef".toList)
          (.plain ⟨some [⟨1, 1, 1, 4, 1, "beforeStart", ['X']⟩,
                         ⟨1, 2, 1, 5, 1, "beforeStart", ['Y']⟩]⟩)).2.replacements
        = [⟨0, 3, 1, 1, 1, "beforeStart", ['X']⟩, ⟨1, 4, 1, 1, 1, "beforeStart", ['Y']⟩] := by
        decide
      rw [he] at hpw
      exact hpw)).1
    have h3 := h2 _ (List.mem_cons_self _ _)
    simp [overlaps] at h3

/-- Witness for claim C3: the amended invariant applied to the concrete state
reached by one internally disjoint `applyFix` call on a fresh session. -/
theorem C3_witness :
    ((applyFix (Session.new "abcdef".toList)
      (.plain ⟨some [⟨1, 1, 1, 3, 1, "beforeStart", ['X']⟩,
                     ⟨1, 4, 1, 6, 1, "beforeStart", ['Y']⟩]⟩)).2).replacements.Pairwise
      (fun c d => overlaps c d = false) :=
  C3_accepted_set_pairwise_disjoint "abcdef".toList _
    (ReachableDisj.stepFix _ _ ReachableDisj.init (by decide))

/-! ### The length law of getResult -/

/-- Net length change contributed by one candidate: replacement text length
minus the length of the replaced `[start, end)` span of the original text. -/
def deltaOf (c : Candidate) : Int := (c.text.length : Int) - ((c.endPos : Int) - (c.start : Int))

/-- Total net length change of a candidate list. -/
def sumDelta (P : List Candidate) : Int := (P.map deltaOf).sum

/-- The anchor pivot at which `applyReplacement` records a candidate's delta:
`start` for `beforeStart`, `end + 1` otherwise (i.e. for `afterEnd`). -/
def pivotOf (c : Candidate) : Int :=
  if c.point = "beforeStart" then (c.start : Int) else (c.endPos : Int) + 1

/-- Sum of the deltas of the candidates whose pivot is at most `p`. -/
def sumDeltaLE (P : List Candidate) (p : Int) : Int :=
  (P.map (fun c => if pivotOf c ≤ p then deltaOf c else 0)).sum

/-- Strict separation of two candidates: their closed spans neither overlap
nor touch at an endpoint. -/
def sepStrict (c d : Candidate) : Prop := c.endPos < d.start ∨ d.endPos < c.start

instance (c d : Candidate) : Decidable (sepStrict c d) := by
  unfold sepStrict
  infer_instance

theorem sepStrict_symm : ∀ {c d : Candidate}, sepStrict c d → sepStrict d c :=
  fun h => h.symm

/-- The half-open span of original-text offsets replaced by a candidate. -/
def spanSet (c : Candidate) : Finset Nat := Finset.Ico c.start c.endPos

theorem spanSet_disjoint (c d : Candidate) (h : sepStrict c d) :
    Disjoint (spanSet c) (spanSet d) := by
  rw [Finset.disjoint_left]
  intro x hx hx2
  simp only [spanSet, Finset.mem_Ico] at hx hx2
  rcases h with h | h <;> omega

/-- Union of the spans of a candidate list. -/
def spanUnion (P : List Candidate) : Finset Nat :=
  P.foldr (fun c acc => spanSet c ∪ acc) ∅

theorem disjoint_spanUnion (c : Candidate) (P : List Candidate)
    (h : ∀ d ∈ P, Disjoint (spanSet c) (spanSet d)) :
    Disjoint (spanSet c) (spanUnion P) := by
  induction P with
  | nil => simp [spanUnion]
  | cons d P ih =>
    simp only [spanUnion, List.foldr_cons, Finset.disjoint_union_right]
    exact ⟨h d (List.mem_cons_self _ _),
      by simpa [spanUnion] using ih (fun e he => h e (List.mem_cons_of_mem _ he))⟩

theorem spanUnion_card (P : List Candidate)
    (hpw : P.Pairwise (fun c d => Disjoint (spanSet c) (spanSet d))) :
    (spanUnion P).card = (P.map (fun c => c.endPos - c.start)).sum := by
  induction P with
  | nil => simp [spanUnion]
  | cons c P ih =>
    obtain ⟨hc, hP⟩ := List.pairwise_cons.mp hpw
    have hu : spanUnion (c :: P) = spanSet c ∪ spanUnion P := rfl
    rw [hu, Finset.card_union_of_disjoint (disjoint_spanUnion c P hc), ih hP]
    simp [spanSet, Nat.card_Ico]

theorem spanUnion_subset (P : List Candidate) (A N : Nat)
    (h : ∀ c ∈ P, A ≤ c.start ∧ c.endPos ≤ N) :
    spanUnion P ⊆ Finset.Ico A N := by
  induction P with
  | nil => simp [spanUnion]
  | cons c P ih =>
    simp only [spanUnion, List.foldr_cons]
    apply Finset.union_subset
    · intro x hx
      simp only [spanSet, Finset.mem_Ico] at hx
      have := h c (List.mem_cons_self _ _)
      simp only [Finset.mem_Ico]
      omega
    · exact ih (fun e he => h e (List.mem_cons_of_mem _ he))

/-- Packing bound: pairwise strictly separated spans inside `[A, N)` cover at
most `N - A` offsets in total. -/
theorem packing (P : List Candidate) (A N : Nat)
    (hb : ∀ c ∈ P, A ≤ c.start ∧ c.start ≤ c.endPos ∧ c.endPos ≤ N)
    (hsep : P.Pairwise sepStrict) :
    (P.map (fun c => c.endPos - c.start)).sum ≤ N - A := by
  have hpw : P.Pairwise (fun c d => Disjoint (spanSet c) (spanSet d)) :=
    hsep.imp (fun h => spanSet_disjoint _ _ h)
  rw [← spanUnion_card P hpw]
  calc (spanUnion P).card ≤ (Finset.Ico A N).card :=
        Finset.card_le_card (spanUnion_subset P A N (fun c hc => ⟨(hb c hc).1, (hb c hc).2.2⟩))
    _ = N - A := Nat.card_Ico A N

theorem natSum_cast (P : List Candidate) (hb : ∀ c ∈ P, c.start ≤ c.endPos) :
    (((P.map (fun c => c.endPos - c.start)).sum : ℕ) : Int)
      = (P.map (fun c => (c.endPos : Int) - (c.start : Int))).sum := by
  induction P with
  | nil => simp
  | cons c P ih =>
    have hc := hb c (List.mem_cons_self _ _)
    have hih := ih (fun e he => hb e (List.mem_cons_of_mem _ he))
    simp only [List.map_cons, List.sum_cons]
    rw [Nat.cast_add, Nat.cast_sub hc, hih]

theorem sumDelta_ge_int (P : List Candidate) :
    -((P.map (fun c => (c.endPos : Int) - (c.start : Int))).sum) ≤ sumDelta P := by
  induction P with
  | nil => simp [sumDelta]
  | cons c P ih =>
    simp only [sumDelta, List.map_cons, List.sum_cons, deltaOf] at ih ⊢
    have ht : (0 : Int) ≤ c.text.length := Int.natCast_nonneg _
    omega

/-- Lower bound on the total delta of strictly separated candidates living in
`[A, N)`: deletions cannot remove more than `N - A` characters. -/
theorem sumDelta_lower (P : List Candidate) (A N : Nat) (hAN : A ≤ N)
    (hb : ∀ c ∈ P, A ≤ c.start ∧ c.start ≤ c.endPos ∧ c.endPos ≤ N)
    (hsep : P.Pairwise sepStrict) :
    (A : Int) ≤ (N : Int) + sumDelta P := by
  have h1 := packing P A N hb hsep
  have h2 := natSum_cast P (fun c hc => (hb c hc).2.1)
  have h3 := sumDelta_ge_int P
  omega

theorem pivotOf_cases (c d : Candidate) (hc : c.start ≤ c.endPos) (hd : d.start ≤ d.endPos)
    (hsep : sepStrict c d) :
    (c.endPos < d.start ∧ pivotOf c ≤ (d.start : Int) ∧ pivotOf c ≤ (d.endPos : Int))
    ∨ (¬ c.endPos < d.start ∧ d.endPos < c.start
        ∧ ¬ pivotOf c ≤ (d.start : Int) ∧ ¬ pivotOf c ≤ (d.endPos : Int)) := by
  unfold pivotOf
  rcases hsep with h | h
  · left
    refine ⟨h, ?_, ?_⟩ <;> split_ifs <;> omega
  · right
    have hne : ¬ c.endPos < d.start := by omega
    refine ⟨hne, h, ?_, ?_⟩ <;> split_ifs <;> omega

theorem sumDeltaLE_decomp (d : Candidate) (hd : d.start ≤ d.endPos) :
    ∀ P : List Candidate, (∀ c ∈ P, c.start ≤ c.endPos) → (∀ c ∈ P, sepStrict c d) →
      sumDeltaLE P (d.start : Int)
          = sumDelta (P.filter (fun c => decide (c.endPos < d.start)))
      ∧ sumDeltaLE P (d.endPos : Int) = sumDeltaLE P (d.start : Int) := by
  intro P
  induction P with
  | nil => intro _ _; simp [sumDeltaLE, sumDelta]
  | cons c P ih =>
    intro hb hsep
    obtain ⟨ih1, ih2⟩ := ih (fun e he => hb e (List.mem_cons_of_mem _ he))
      (fun e he => hsep e (List.mem_cons_of_mem _ he))
    rcases pivotOf_cases c d (hb c (List.mem_cons_self _ _)) hd (hsep c (List.mem_cons_self _ _))
      with ⟨h1, h2, h3⟩ | ⟨h1, _, h2, h3⟩
    · rw [List.filter_cons_of_pos (by simpa using h1)] at *
      simp only [sumDeltaLE, sumDelta, List.map_cons, List.sum_cons, if_pos h2, if_pos h3] at *
      constructor <;> omega
    · rw [List.filter_cons_of_neg (by simpa using h1)] at *
      simp only [sumDeltaLE, sumDelta, List.map_cons, List.sum_cons, if_neg h2, if_neg h3] at *
      constructor <;> omega

theorem shift_bounds (orig : Nat) (d : Candidate) (P : List Candidate)
    (hb : ∀ c ∈ P, c.start ≤ c.endPos ∧ c.endPos ≤ orig)
    (hd : d.start ≤ d.endPos) (hdN : d.endPos ≤ orig)
    (hsep : ∀ c ∈ P, sepStrict c d) (hpw : P.Pairwise sepStrict) :
    sumDeltaLE P (d.endPos : Int) = sumDeltaLE P (d.start : Int)
    ∧ 0 ≤ (d.start : Int) + sumDeltaLE P (d.start : Int)
    ∧ (d.endPos : Int) + sumDeltaLE P (d.start : Int) ≤ (orig : Int) + sumDelta P := by
  obtain ⟨h1, h2⟩ := sumDeltaLE_decomp d hd P (fun c hc => (hb c hc).1) hsep
  refine ⟨h2, ?_, ?_⟩
  · rw [h1]
    have hlo := sumDelta_lower (P.filter (fun c => decide (c.endPos < d.start))) 0 d.start
      (Nat.zero_le _)
      (fun c hc => by
        have hm := List.mem_filter.mp hc
        have hcb := hb c hm.1
        have hlt : c.endPos < d.start := by simpa using hm.2
        exact ⟨Nat.zero_le _, hcb.1, by omega⟩)
      (List.Pairwise.sublist (List.filter_sublist _) hpw)
    simpa using hlo
  · have hperm := List.filter_append_perm (fun c => decide (c.endPos < d.start)) P
    have hsum : sumDelta P
        = sumDelta (P.filter (fun c => decide (c.endPos < d.start)))
          + sumDelta (P.filter (fun c => !(decide (c.endPos < d.start)))) := by
      have hpm := (hperm.map deltaOf).sum_eq
      simp only [sumDelta]
      rw [← hpm, List.map_append, List.sum_append]
    have hhi := sumDelta_lower (P.filter (fun c => !(decide (c.endPos < d.start)))) d.endPos orig
      hdN
      (fun c hc => by
        have hm := List.mem_filter.mp hc
        have hcb := hb c hm.1
        have hnlt : ¬ c.endPos < d.start := by simpa using hm.2
        have hgt : d.endPos < c.start := by
          rcases hsep c hm.1 with h | h
          · omega
          · exact h
        exact ⟨by omega, hcb.1, hcb.2⟩)
      (List.Pairwise.sublist (List.filter_sublist _) hpw)
    rw [h1, hsum]
    omega

theorem sumDeltaLE_append_one (P : List Candidate) (d : Candidate) (p : Int) :
    sumDeltaLE (P ++ [d]) p = sumDeltaLE P p + (if pivotOf d ≤ p then deltaOf d else 0) := by
  simp [sumDeltaLE]

theorem sumDelta_append_one (P : List Candidate) (d : Candidate) :
    sumDelta (P ++ [d]) = sumDelta P + deltaOf d := by
  simp [sumDelta]

theorem splice_length (file t : List Char) (a b : Int)
    (h0 : 0 ≤ a) (hab : a ≤ b) (hb : b ≤ (file.length : Int)) :
    (((file.take a.toNat ++ t ++ file.drop b.toNat).length : Int))
      = (file.length : Int) + (t.length : Int) - (b - a) := by
  simp only [List.length_append, List.length_take, List.length_drop]
  push_cast
  omega

/-- Invariant of the application loop: starting from a tree that reflects the
already-applied candidates `P` and a file whose length is the original length
plus their total delta, applying the strictly separated remaining candidates
`R` yields a file of length `original + sumDelta (P ++ R)`. -/
theorem applyAll_length_inv (orig : Nat) :
    ∀ (R P : List Candidate) (fileCur : List Char) (tree : PrefixSumTree),
      (∀ c ∈ P ++ R, c.start ≤ c.endPos ∧ c.endPos ≤ orig) →
      (P ++ R).Pairwise sepStrict →
      (∀ p : Int, tree.lookup p = sumDeltaLE P p) →
      ((fileCur.length : Int) = (orig : Int) + sumDelta P) →
      ∀ out, applyAll fileCur tree R = .ok out →
        ((out.1.length : Int) = (orig : Int) + sumDelta (P ++ R)) := by
  intro R
  induction R with
  | nil =>
    intro P fileCur tree _ _ _ hlen out hout
    simp only [applyAll] at hout
    cases hout
    simpa using hlen
  | cons d R2 ih =>
    intro P fileCur tree hb hpw htree hlen out hout
    have hbd := hb d (by simp)
    have hbP : ∀ c ∈ P, c.start ≤ c.endPos ∧ c.endPos ≤ orig :=
      fun c hc => hb c (List.mem_append_left _ hc)
    have hpwdec := List.pairwise_append.mp hpw
    have hsepPd : ∀ c ∈ P, sepStrict c d :=
      fun c hc => hpwdec.2.2 c hc d (List.mem_cons_self _ _)
    obtain ⟨hEq, hlow, hup⟩ := shift_bounds orig d P hbP hbd.1 hbd.2 hsepPd hpwdec.1
    have hlkS : tree.lookup (d.start : Int) = sumDeltaLE P (d.start : Int) := htree _
    have hlkE : tree.lookup (d.endPos : Int) = sumDeltaLE P (d.endPos : Int) := htree _
    have hδ : (d.text.length : Int)
        - (((d.endPos : Int) + tree.lookup (d.endPos : Int))
          - ((d.start : Int) + tree.lookup (d.start : Int))) = deltaOf d := by
      rw [hlkS, hlkE, hEq]
      unfold deltaOf
      ring
    have hfrom0 : 0 ≤ (d.start : Int) + tree.lookup (d.start : Int) := by
      rw [hlkS]; exact hlow
    have hfromto : (d.start : Int) + tree.lookup (d.start : Int)
        ≤ (d.endPos : Int) + tree.lookup (d.endPos : Int) := by
      rw [hlkS, hlkE, hEq]
      have := hbd.1
      omega
    have htoUB : (d.endPos : Int) + tree.lookup (d.endPos : Int) ≤ (fileCur.length : Int) := by
      rw [hlkE, hEq, hlen]
      exact hup
    have hsplice := splice_length fileCur d.text
      ((d.start : Int) + tree.lookup (d.start : Int))
      ((d.endPos : Int) + tree.lookup (d.endPos : Int)) hfrom0 hfromto htoUB
    have hlen2 : ((fileCur.take ((d.start : Int) + tree.lookup (d.start : Int)).toNat
        ++ d.text
        ++ fileCur.drop ((d.endPos : Int) + tree.lookup (d.endPos : Int)).toNat).length : Int)
        = (orig : Int) + sumDelta (P ++ [d]) := by
      rw [hsplice, hlen, sumDelta_append_one]
      have hδ2 := hδ
      unfold deltaOf at hδ2 ⊢
      omega
    have hb2 : ∀ c ∈ (P ++ [d]) ++ R2, c.start ≤ c.endPos ∧ c.endPos ≤ orig := by
      intro c hc
      apply hb c
      rw [List.append_assoc] at hc
      exact hc
    have hpw2 : ((P ++ [d]) ++ R2).Pairwise sepStrict := by
      rw [List.append_assoc]
      exact hpw
    by_cases hbs : d.point = "beforeStart"
    · have happ : applyReplacement fileCur tree d = .ok
          (fileCur.take ((d.start : Int) + tree.lookup (d.start : Int)).toNat
            ++ d.text
            ++ fileCur.drop ((d.endPos : Int) + tree.lookup (d.endPos : Int)).toNat,
           tree.insert (d.start : Int) (deltaOf d)) := by
        rw [← hδ]
        simp [applyReplacement, hbs]
      simp only [applyAll, happ] at hout
      have htree2 : ∀ p : Int,
          (tree.insert (d.start : Int) (deltaOf d)).lookup p = sumDeltaLE (P ++ [d]) p := by
        intro p
        rw [PrefixSumTree.lookup_insert, htree p, sumDeltaLE_append_one]
        have hpiv : pivotOf d = (d.start : Int) := by simp [pivotOf, hbs]
        rw [hpiv]
      have := ih (P ++ [d]) _ _ hb2 hpw2 htree2 hlen2 out hout
      rw [List.append_assoc] at this
      exact this
    · by_cases hae : d.point = "afterEnd"
      · have happ : applyReplacement fileCur tree d = .ok
            (fileCur.take ((d.start : Int) + tree.lookup (d.start : Int)).toNat
              ++ d.text
              ++ fileCur.drop ((d.endPos : Int) + tree.lookup (d.endPos : Int)).toNat,
             tree.insert ((d.endPos : Int) + 1) (deltaOf d)) := by
          rw [← hδ]
          simp [applyReplacement, hbs, hae]
        simp only [applyAll, happ] at hout
        have htree2 : ∀ p : Int,
            (tree.insert ((d.endPos : Int) + 1) (deltaOf d)).lookup p
              = sumDeltaLE (P ++ [d]) p := by
          intro p
          rw [PrefixSumTree.lookup_insert, htree p, sumDeltaLE_append_one]
          have hpiv : pivotOf d = (d.endPos : Int) + 1 := by simp [pivotOf, hbs]
          rw [hpiv]
        have := ih (P ++ [d]) _ _ hb2 hpw2 htree2 hlen2 out hout
        rw [List.append_assoc] at this
        exact this
      · have happ : applyReplacement fileCur tree d
            = .error ("Unrecognized insertion point " ++ d.point) := by
          simp [applyReplacement, hbs, hae]
        simp only [applyAll, happ] at hout
        exact absurd hout (by simp)

/-- Claim C4 (amended): provided every accepted candidate is well formed
(`start ≤ end ≤ length of the original`) and the closed spans of distinct
accepted candidates are strictly separated — never overlapping nor touching at
an endpoint — the string returned by `getResult()` has length equal to the
original length plus the sum over accepted candidates of
(replacement text length − replaced span length). Candidates that merely touch
can break the law, because an anchor pivot of one candidate may fall inside
the span of a candidate spliced later, skewing its shifted offsets. -/
theorem C4_length_law (s : Session)
    (hb : ∀ c ∈ s.replacements, c.start ≤ c.endPos ∧ c.endPos ≤ s.file.length)
    (hsep : s.replacements.Pairwise sepStrict)
    (res : List Char) (hres : (getResult s).1 = Except.ok res) :
    (res.length : Int) = (s.file.length : Int) + sumDelta s.replacements := by
  have hres2 : Except.map Prod.fst (applyAll s.file PrefixSumTree.new
      (sortByPrec s.replacements).reverse) = Except.ok res := hres
  clear hres
  rename' hres2 => hres
  rcases happ : applyAll s.file PrefixSumTree.new (sortByPrec s.replacements).reverse
    with e | out
  · rw [happ] at hres
    exact absurd hres (by simp [Except.map])
  · rw [happ] at hres
    simp only [Except.map, Except.ok.injEq] at hres
    have hperm : ((sortByPrec s.replacements).reverse).Perm s.replacements :=
      (List.reverse_perm _).trans (sortByPrec_perm _)
    have hmain := applyAll_length_inv s.file.length ((sortByPrec s.replacements).reverse) []
      s.file PrefixSumTree.new
      (by
        intro c hc
        simp only [List.nil_append] at hc
        exact hb c (hperm.mem_iff.mp hc))
      (by
        simp only [List.nil_append]
        exact (hperm.pairwise_iff (fun h => sepStrict_symm h)).mpr hsep)
      (by intro p; simp [sumDeltaLE, PrefixSumTree.lookup_new])
      (by simp [sumDelta])
      out happ
    rw [hres] at hmain
    rw [hmain]
    simp only [List.nil_append]
    have hsums : sumDelta ((sortByPrec s.replacements).reverse) = sumDelta s.replacements :=
      (hperm.map deltaOf).sum_eq
    rw [hsums]

def c4witSession : Session :=
  ⟨"abcdefghij".toList,
    [⟨2, 5, 1, 1, 2, "beforeStart", "XY".toList⟩,
     ⟨7, 9, 1, 1, 1, "beforeStart", "Z".toList⟩]⟩

/-- Witness for claim C4: two strictly separated candidates `[2,5) → "XY"` and
`[7,9) → "Z"` on a ten-character text; the rendered length is 8 = 10 − 1 − 1,
matching the length law. -/
theorem C4_witness :
    ((("abXYfgZj".toList : List Char)).length : Int)
      = (c4witSession.file.length : Int) + sumDelta c4witSession.replacements := by
  apply C4_length_law c4witSession (by decide) (by decide)
  have hsort : sortByPrec c4witSession.replacements = c4witSession.replacements := by
    simp [sortByPrec, c4witSession, List.mergeSort]
  unfold getResult
  rw [hsort]
  rfl

def c4cexSession : Session :=
  (applyFix (applyFix (Session.new "abcdefghij".toList)
    (.plain ⟨some [⟨1, 3, 1, 6, 2, "beforeStart", "XY".toList⟩]⟩)).2
    (.plain ⟨some [⟨1, 6, 1, 8, 1, "beforeStart", "Z".toList⟩]⟩)).2

/-- Claim C4 counterexample: a state reached by accepting two fixes whose
candidates `[2,5)` (precedence 2, replaces three characters by `"XY"`) and
`[5,7)` (precedence 1, replaces two characters by `"Z"`) touch at offset 5.
`getResult()` returns the nine-character string `"abXYeZhij"`, while the
claimed length law predicts 10 + (2−3) + (1−2) = 8: the law fails because the
lower-precedence candidate is spliced first and its pivot at 5 skews the
shifted end offset of the later splice. -/
theorem C4_counterexample :
    (applyFix (Session.new "abcdefghij".toList)
      (.plain ⟨some [⟨1, 3, 1, 6, 2, "beforeStart", "XY".toList⟩]⟩)).1 = true ∧
    (applyFix (applyFix (Session.new "abcdefghij".toList)
      (.plain ⟨some [⟨1, 3, 1, 6, 2, "beforeStart", "XY".toList⟩]⟩)).2
      (.plain ⟨some [⟨1, 6, 1, 8, 1, "beforeStart", "Z".toList⟩]⟩)).1 = true ∧
    (getResult c4cexSession).1 = Except.ok "abXYeZhij".toList ∧
    ((("abXYeZhij".toList : List Char).length : Int)
      ≠ (c4cexSession.file.length : Int) + sumDelta c4cexSession.replacements) := by
  refine ⟨by decide, by decide, ?_, by decide⟩
  have hrepl : c4cexSession.replacements
      = [⟨2, 5, 1, 1, 2, "beforeStart", "XY".toList⟩,
         ⟨5, 7, 1, 1, 1, "beforeStart", "Z".toList⟩] := by decide
  have hsort : sortByPrec c4cexSession.replacements
      = [⟨2, 5, 1, 1, 2, "beforeStart", "XY".toList⟩,
         ⟨5, 7, 1, 1, 1, "beforeStart", "Z".toList⟩] := by
    rw [hrepl]
    simp [sortByPrec, List.mergeSort]
  show Except.map Prod.fst (applyAll c4cexSession.file PrefixSumTree.new
      (sortByPrec c4cexSession.replacements).reverse) = Except.ok "abXYeZhij".toList
  rw [hsort]
  rfl
